import Mathlib

/-!
Verification of the upholicfno ingestion service.

The definitions below are shallow embeddings of the TypeScript source:
JavaScript numbers are modelled as `Int` (all inputs of interest are exact
integers, so the `Number.isFinite` guards of the source are vacuously true
in the model and noted where they occur), `Array.prototype.sort` (stable,
comparator-based) is modelled by the stable insertion sort `sortLe`,
JavaScript `Map` built by repeated `set` calls (later writes win) is
modelled by `rankGet`, and fallible operations return `Except`/`Option`.
-/

namespace Upholic

/-! ### Stable sort, modelling `Array.prototype.sort` with a consistent
comparator.  `sortLe le l` is stable and orders the list so that `le`
holds between consecutive elements, exactly like the JS engine does for a
consistent comparator `c` with `le a b := (c a b ≤ 0)`. -/

def insertLe {α : Type _} (le : α → α → Bool) (a : α) : List α → List α
  | [] => [a]
  | b :: l => if le a b then a :: b :: l else b :: insertLe le a l

def sortLe {α : Type _} (le : α → α → Bool) : List α → List α
  | [] => []
  | a :: l => insertLe le a (sortLe le l)

theorem insertLe_perm {α : Type _} (le : α → α → Bool) (a : α) :
    ∀ l : List α, (insertLe le a l).Perm (a :: l) := by
  intro l
  induction l with
  | nil => simp [insertLe]
  | cons b t ih =>
    by_cases h : le a b = true
    · simp [insertLe, h]
    · simp only [insertLe, h]
      rw [if_neg (by simp [h])]
      exact (List.Perm.cons b ih).trans (List.Perm.swap a b t)

theorem sortLe_perm {α : Type _} (le : α → α → Bool) :
    ∀ l : List α, (sortLe le l).Perm l := by
  intro l
  induction l with
  | nil => simp [sortLe]
  | cons a t ih =>
    exact (insertLe_perm le a (sortLe le t)).trans (List.Perm.cons a ih)

theorem mem_insertLe {α : Type _} {le : α → α → Bool} {a x : α} {l : List α}
    (h : x ∈ insertLe le a l) : x = a ∨ x ∈ l := by
  have := (insertLe_perm le a l).mem_iff.mp h
  simpa using this

theorem pairwise_insertLe {α : Type _} {le : α → α → Bool}
    (htot : ∀ a b, le a b = true ∨ le b a = true)
    (htr : ∀ a b c, le a b = true → le b c = true → le a c = true)
    (a : α) :
    ∀ {l : List α}, l.Pairwise (fun x y => le x y = true) →
      (insertLe le a l).Pairwise (fun x y => le x y = true) := by
  intro l hl
  induction l with
  | nil => simp [insertLe]
  | cons b t ih =>
    rcases List.pairwise_cons.mp hl with ⟨hbt, ht⟩
    by_cases h : le a b = true
    · simp only [insertLe, h, if_true]
      refine List.pairwise_cons.mpr ⟨?_, hl⟩
      intro x hx
      rcases List.mem_cons.mp hx with rfl | hx
      · exact h
      · exact htr a b x h (hbt x hx)
    · simp only [insertLe, h]
      rw [if_neg (by simp [h])]
      refine List.pairwise_cons.mpr ⟨?_, ih ht⟩
      intro x hx
      rcases mem_insertLe hx with rfl | hx
      · rcases htot x b with h1 | h1
        · exact absurd h1 h
        · exact h1
      · exact hbt x hx

theorem pairwise_sortLe {α : Type _} {le : α → α → Bool}
    (htot : ∀ a b, le a b = true ∨ le b a = true)
    (htr : ∀ a b c, le a b = true → le b c = true → le a c = true) :
    ∀ l : List α, (sortLe le l).Pairwise (fun x y => le x y = true) := by
  intro l
  induction l with
  | nil => simp [sortLe]
  | cons a t ih => exact pairwise_insertLe htot htr a ih

/-- Two sorted lists that are permutations of each other and on whose
elements the ordering is antisymmetric are equal. -/
theorem sorted_perm_eq {α : Type _} {le : α → α → Bool} :
    ∀ {l₁ l₂ : List α}, l₁.Perm l₂ →
      l₁.Pairwise (fun x y => le x y = true) →
      l₂.Pairwise (fun x y => le x y = true) →
      (∀ a ∈ l₁, ∀ b ∈ l₁, le a b = true → le b a = true → a = b) →
      l₁ = l₂ := by
  intro l₁
  induction l₁ with
  | nil => intro l₂ hp _ _ _; simpa using hp.symm
  | cons a t ih =>
    intro l₂ hp h₁ h₂ hanti
    cases l₂ with
    | nil => exact absurd hp.symm (by simp)
    | cons b u =>
      rcases List.pairwise_cons.mp h₁ with ⟨hat, ht⟩
      rcases List.pairwise_cons.mp h₂ with ⟨hbu, hu⟩
      have hb_mem : b ∈ a :: t := hp.mem_iff.mpr (by simp)
      have hab : a = b := by
        rcases List.mem_cons.mp hb_mem with hb | hb
        · exact hb.symm
        · have h1 : le a b = true := hat b hb
          have ha_mem : a ∈ b :: u := hp.mem_iff.mp (by simp)
          rcases List.mem_cons.mp ha_mem with ha | ha
          · exact ha
          · have h2 : le b a = true := hbu a ha
            exact hanti a (by simp) b (List.mem_cons_of_mem a hb) h1 h2
      subst hab
      have hperm : t.Perm u := hp.cons_inv
      have : t = u := by
        refine ih hperm ht hu ?_
        intro x hx y hy
        exact hanti x (List.mem_cons_of_mem a hx) y (List.mem_cons_of_mem a hy)
      rw [this]

theorem getLast?_mem_self {α : Type _} :
    ∀ {l : List α} {m : α}, l.getLast? = some m → m ∈ l := by
  intro l
  induction l with
  | nil => intro m h; simp at h
  | cons a t ih =>
    intro m h
    cases t with
    | nil => simp_all [List.getLast?]
    | cons b u =>
      rw [List.getLast?_cons_cons] at h
      exact List.mem_cons_of_mem a (ih h)

theorem pairwise_le_getLast? {α : Type _} {le : α → α → Bool} :
    ∀ {l : List α} {m : α}, l.Pairwise (fun x y => le x y = true) →
      l.getLast? = some m → ∀ x ∈ l, x = m ∨ le x m = true := by
  intro l
  induction l with
  | nil => intro m _ h; simp at h
  | cons a t ih =>
    intro m hpw hlast x hx
    rcases List.pairwise_cons.mp hpw with ⟨hat, ht⟩
    cases t with
    | nil =>
      simp only [List.getLast?_singleton, Option.some.injEq] at hlast
      subst hlast
      simp at hx
      simp [hx]
    | cons b u =>
      rw [List.getLast?_cons_cons] at hlast
      have hm : m ∈ b :: u := getLast?_mem_self hlast
      rcases List.mem_cons.mp hx with rfl | hx
      · exact Or.inr (hat m hm)
      · exact ih ht hlast x hx

/-- In a sorted list, the element found by `find?` is a lower bound of all
elements satisfying the predicate. -/
theorem find?_first_of_pairwise {α : Type _} {le : α → α → Bool} {p : α → Bool} :
    ∀ {l : List α} {r : α}, l.Pairwise (fun x y => le x y = true) →
      l.find? p = some r → ∀ x ∈ l, p x = true → r = x ∨ le r x = true := by
  intro l
  induction l with
  | nil => intro r _ h; simp at h
  | cons a t ih =>
    intro r hpw hfind x hx hpx
    rcases List.pairwise_cons.mp hpw with ⟨hat, ht⟩
    by_cases ha : p a = true
    · rw [List.find?_cons_of_pos _ ha] at hfind
      cases hfind
      rcases List.mem_cons.mp hx with rfl | hx
      · exact Or.inl rfl
      · exact Or.inr (hat x hx)
    · rw [List.find?_cons_of_neg _ (by simp [ha])] at hfind
      rcases List.mem_cons.mp hx with rfl | hx
      · exact absurd hpx ha
      · exact ih ht hfind x hx hpx

/-! ### Data model of `src/gexLevelsCalc.ts`

`GexRow` embeds the `GexRow` type (all numeric fields as `Int`; the
`finite` guards of the source are vacuously true for `Int` and are noted
where they appear in the translated code). -/

structure GexRow where
  strike : Int
  gex_oi_raw : Int
  gex_vol_raw : Int
  ce_oi : Int := 0
  pe_oi : Int := 0
  ce_vol : Int := 0
  pe_vol : Int := 0
deriving DecidableEq, Repr

def OI_WEIGHT : Nat := 2
def VOL_WEIGHT : Nat := 1

/-- Comparator used by `rankMap`: sort by `key` descending when
`desc = true` (JS comparator `(a, b) => b[key] - a[key]`), ascending
otherwise. -/
def keyCmp (key : GexRow → Int) (desc : Bool) (a b : GexRow) : Bool :=
  if desc then decide (key b ≤ key a) else decide (key a ≤ key b)

/-- `rankGet sorted s i` is the value the JS `Map` built by
`for (i) map.set(sorted[i].strike, i + 1)` associates to strike `s`
(later `set` calls overwrite earlier ones), with the head of `sorted`
receiving rank `i`.  `rankMap` of the source is
`fun s => rankGet (sortLe (keyCmp key desc) rows) s 1`. -/
def rankGet : List GexRow → Int → Nat → Option Nat
  | [], _, _ => none
  | r :: rest, s, i =>
    match rankGet rest s (i + 1) with
    | some v => some v
    | none => if r.strike = s then some i else none

/-- `rankMap(rows, key, desc)` of the source, as a lookup function. -/
def rankMap (rows : List GexRow) (key : GexRow → Int) (desc : Bool) :
    Int → Option Nat :=
  fun s => rankGet (sortLe (keyCmp key desc) rows) s 1

/-- `rankMapAbs(rows, "gex_oi_raw")` of the source: rank by `|gex_oi_raw|`
ascending. -/
def rankMapAbs (rows : List GexRow) : Int → Option Nat :=
  fun s =>
    rankGet (sortLe (fun a b => decide (a.gex_oi_raw.natAbs ≤ b.gex_oi_raw.natAbs)) rows) s 1

structure ScoredRow where
  strike : Int
  oiR : Nat
  volR : Nat
  score : Nat
deriving DecidableEq, Repr

/-- The comparator `(a, b) => a.score - b.score || a.oiR - b.oiR || a.volR - b.volR`
of `pickLinesByRaw`, as the corresponding total preorder. -/
def scoredLe (a b : ScoredRow) : Bool :=
  decide (a.score < b.score ∨ (a.score = b.score ∧
    (a.oiR < b.oiR ∨ (a.oiR = b.oiR ∧ a.volR ≤ b.volR))))

structure LineMark where
  strike : Int
  label : String
  color : String
  side : String
deriving DecidableEq, Repr

/-- One entry of the `scored` list of `pickLinesByRaw`:
`{strike, oiR, volR, score: OI_WEIGHT*oiR + VOL_WEIGHT*volR}` with the
ranks looked up in the per-strike rank maps (`?? 9999` when absent). -/
def scoreFun (regime : List GexRow) (desc : Bool) (r : GexRow) : ScoredRow :=
  let oiR := (rankMap regime (·.gex_oi_raw) desc r.strike).getD 9999
  let volR := (rankMap regime (·.gex_vol_raw) desc r.strike).getD 9999
  ⟨r.strike, oiR, volR, OI_WEIGHT * oiR + VOL_WEIGHT * volR⟩

/-- The `scored` list of `pickLinesByRaw` for one regime (`desc = true` for
the positive regime, `false` for the negative one). -/
def scoreRegime (regime : List GexRow) (desc : Bool) : List ScoredRow :=
  regime.map (scoreFun regime desc)

/-- `if (scored[0]) red.push(...R1); if (scored[1]) red.push(...R2)` after
sorting, for the red (resistance) side. -/
def redMarks (scored : List ScoredRow) : List LineMark :=
  match sortLe scoredLe scored with
  | [] => []
  | [a] => [⟨a.strike, "R1", "#ef4444", "ce"⟩]
  | a :: b :: _ =>
    [⟨a.strike, "R1", "#ef4444", "ce"⟩, ⟨b.strike, "R2", "#fca5a5", "ce"⟩]

/-- Same for the green (support) side. -/
def greenMarks (scored : List ScoredRow) : List LineMark :=
  match sortLe scoredLe scored with
  | [] => []
  | [a] => [⟨a.strike, "S1", "#10b981", "pe"⟩]
  | a :: b :: _ =>
    [⟨a.strike, "S1", "#10b981", "pe"⟩, ⟨b.strike, "S2", "#86efac", "pe"⟩]

/-- The `valid` filter of `pickLinesByRaw`: the three `finite` conjuncts are
vacuous over `Int`; `!(r.gex_oi_raw === 0 && r.gex_vol_raw === 0)` remains. -/
def validRows (rows : List GexRow) : List GexRow :=
  rows.filter (fun r => !(r.gex_oi_raw == 0 && r.gex_vol_raw == 0))

def posFilter (r : GexRow) : Bool :=
  decide (0 < r.gex_oi_raw) && decide (0 < r.gex_vol_raw)

def negFilter (r : GexRow) : Bool :=
  decide (r.gex_oi_raw < 0) && decide (r.gex_vol_raw < 0)

/-- The positive regime of `pickLinesByRaw`: valid rows with both
exposures strictly positive. -/
def posRegime (rows : List GexRow) : List GexRow :=
  (validRows rows).filter posFilter

/-- The negative regime: valid rows with both exposures strictly negative. -/
def negRegime (rows : List GexRow) : List GexRow :=
  (validRows rows).filter negFilter

/-- `pickLinesByRaw` of `src/gexLevelsCalc.ts` (lines 73–112). -/
def pickLinesByRaw (rows : List GexRow) : List LineMark × List LineMark :=
  let pos := posRegime rows
  let neg := negRegime rows
  let red := if pos.isEmpty then [] else redMarks (scoreRegime pos true)
  let green := if neg.isEmpty then [] else greenMarks (scoreRegime neg false)
  (red, green)

/-- `pickZeroGammaStrike` of `src/gexLevelsCalc.ts` (lines 114–136).  The
`finite` guards are vacuous over `Int`; `between` keeps every row whose
strike lies in the closed interval `[lo, hi]`.  Note the score-sort has no
tie-breaker and `|| 9999` behaves as `?? 9999` because ranks are ≥ 1. -/
def pickZeroGammaStrike (rows : List GexRow) (r1 s1 : Option Int) : Option Int :=
  match r1, s1 with
  | some r1v, some s1v =>
    let lo := min r1v s1v
    let hi := max r1v s1v
    let between := rows.filter (fun r => decide (lo ≤ r.strike) && decide (r.strike ≤ hi))
    if between.isEmpty then none
    else
      let absOiRank := rankMapAbs between
      let volRank := rankMap between (·.gex_vol_raw) true
      let scored := between.map (fun r =>
        (r.strike, (absOiRank r.strike).getD 9999 + (volRank r.strike).getD 9999))
      ((sortLe (fun a b => decide (a.2 ≤ b.2)) scored).head?).map (·.1)
  | _, _ => none

/-- The level extraction of `computeAndSaveSnapshot` (lines 245–250):
`r1`/`r2`/`s1`/`s2` from the first marks with the matching label, `flip`
from `pickZeroGammaStrike`. -/
def computeLevels (rows : List GexRow) :
    Option Int × Option Int × Option Int × Option Int × Option Int :=
  let rg := pickLinesByRaw rows
  let r1 := (rg.1.find? (fun l => l.label == "R1")).map (·.strike)
  let r2 := (rg.1.find? (fun l => l.label == "R2")).map (·.strike)
  let s1 := (rg.2.find? (fun l => l.label == "S1")).map (·.strike)
  let s2 := (rg.2.find? (fun l => l.label == "S2")).map (·.strike)
  let flip := pickZeroGammaStrike rows r1 s1
  (r1, r2, s1, s2, flip)

/-! ### Rank lemmas: with pairwise-distinct strikes the per-strike `Map`
lookup of the source agrees with the per-row rank of the spec. -/

/-- Per-row rank, following the spec wording: the rank of a row is its
1-based position in the value-sorted regime list (`i` is the rank of the
head). -/
def rowRankAux : List GexRow → GexRow → Nat → Nat
  | [], _, _ => 0
  | h :: t, r, i => if h = r then i else rowRankAux t r (i + 1)

theorem rankGet_eq_none {s : Int} :
    ∀ {l : List GexRow} {i : Nat}, s ∉ l.map (·.strike) → rankGet l s i = none := by
  intro l
  induction l with
  | nil => intro i _; rfl
  | cons h t ih =>
    intro i hs
    simp only [List.map_cons, List.mem_cons] at hs
    push_neg at hs
    simp only [rankGet, ih hs.2]
    rw [if_neg (fun hc => hs.1 hc.symm)]

theorem rankGet_lb :
    ∀ {l : List GexRow} {s : Int} {i v : Nat}, rankGet l s i = some v → i ≤ v := by
  intro l
  induction l with
  | nil => intro s i v h; simp [rankGet] at h
  | cons h t ih =>
    intro s i v hv
    simp only [rankGet] at hv
    cases hrec : rankGet t s (i + 1) with
    | some w =>
      rw [hrec] at hv
      cases hv
      exact Nat.le_of_succ_le (ih hrec)
    | none =>
      rw [hrec] at hv
      by_cases hs : h.strike = s
      · rw [if_pos hs] at hv; cases hv; exact Nat.le_refl _
      · rw [if_neg hs] at hv; cases hv

theorem rankGet_eq_rowRankAux :
    ∀ {l : List GexRow} {r : GexRow} {i : Nat},
      (l.map (·.strike)).Nodup → r ∈ l → rankGet l r.strike i = some (rowRankAux l r i) := by
  intro l
  induction l with
  | nil => intro r i _ hr; simp at hr
  | cons h t ih =>
    intro r i hnd hr
    simp only [List.map_cons, List.nodup_cons] at hnd
    rcases List.mem_cons.mp hr with rfl | hr
    · have : rankGet t r.strike (i + 1) = none := rankGet_eq_none hnd.1
      simp [rankGet, rowRankAux, this]
    · have hne : h ≠ r := by
        intro hc
        exact hnd.1 (hc ▸ List.mem_map_of_mem (·.strike) hr)
      simp only [rankGet, ih hnd.2 hr, rowRankAux, if_neg hne]

theorem rankGet_inj :
    ∀ {l : List GexRow} {s₁ s₂ : Int} {i v : Nat},
      rankGet l s₁ i = some v → rankGet l s₂ i = some v → s₁ = s₂ := by
  intro l
  induction l with
  | nil => intro s₁ s₂ i v h; simp [rankGet] at h
  | cons h t ih =>
    intro s₁ s₂ i v h₁ h₂
    simp only [rankGet] at h₁ h₂
    cases hr₁ : rankGet t s₁ (i + 1) with
    | some w₁ =>
      rw [hr₁] at h₁
      cases h₁
      cases hr₂ : rankGet t s₂ (i + 1) with
      | some w₂ =>
        rw [hr₂] at h₂
        cases h₂
        exact ih hr₁ hr₂
      | none =>
        rw [hr₂] at h₂
        by_cases hs : h.strike = s₂
        · rw [if_pos hs] at h₂
          cases h₂
          exact absurd (rankGet_lb hr₁) (by omega)
        · rw [if_neg hs] at h₂; cases h₂
    | none =>
      rw [hr₁] at h₁
      by_cases hs : h.strike = s₁
      · rw [if_pos hs] at h₁
        cases h₁
        cases hr₂ : rankGet t s₂ (i + 1) with
        | some w₂ =>
          rw [hr₂] at h₂
          cases h₂
          exact absurd (rankGet_lb hr₂) (by omega)
        | none =>
          rw [hr₂] at h₂
          by_cases hs₂ : h.strike = s₂
          · exact hs ▸ hs₂
          · rw [if_neg hs₂] at h₂; cases h₂
      · rw [if_neg hs] at h₁; cases h₁

theorem nodup_strikes_filter {rows : List GexRow} {p : GexRow → Bool}
    (hnd : (rows.map (·.strike)).Nodup) :
    ((rows.filter p).map (·.strike)).Nodup :=
  ((rows.filter_sublist).map (·.strike)).nodup hnd

/-! ### C1: spec-side level selector (the spec's wording assigns the ranks
to rows, by position in the value-sorted regime list). -/

/-- The scored regime list as the spec words it: each ROW gets
`oiRank` / `volRank` equal to its 1-based position in the regime sorted by
the corresponding exposure (descending for the positive regime, ascending
for the negative one), and `score = 2*oiRank + 1*volRank`. -/
def specScoreRegime (regime : List GexRow) (desc : Bool) : List ScoredRow :=
  let oiSorted := sortLe (keyCmp (·.gex_oi_raw) desc) regime
  let volSorted := sortLe (keyCmp (·.gex_vol_raw) desc) regime
  regime.map (fun r =>
    let oiR := rowRankAux oiSorted r 1
    let volR := rowRankAux volSorted r 1
    ⟨r.strike, oiR, volR, OI_WEIGHT * oiR + VOL_WEIGHT * volR⟩)

/-- The level selector as the spec describes it (§4.6 steps 1–4): filter
degenerate rows, partition into the two regimes, rank rows per value, sort
ascending by score with the oiRank/volRank tie-break, label the top two of
each regime. -/
def levelSelectorSpec (rows : List GexRow) : List LineMark × List LineMark :=
  let valid := validRows rows
  let pos := valid.filter posFilter
  let neg := valid.filter negFilter
  (if pos.isEmpty then [] else redMarks (specScoreRegime pos true),
   if neg.isEmpty then [] else greenMarks (specScoreRegime neg false))

theorem scoreRegime_eq_spec (regime : List GexRow) (desc : Bool)
    (hnd : (regime.map (·.strike)).Nodup) :
    scoreRegime regime desc = specScoreRegime regime desc := by
  simp only [scoreRegime, specScoreRegime]
  apply List.map_congr_left
  intro r hr
  have hpo := sortLe_perm (keyCmp (·.gex_oi_raw) desc) regime
  have hpv := sortLe_perm (keyCmp (·.gex_vol_raw) desc) regime
  simp only [scoreFun, rankMap]
  rw [rankGet_eq_rowRankAux ((hpo.map _).nodup_iff.mpr hnd) (hpo.mem_iff.mpr hr),
    rankGet_eq_rowRankAux ((hpv.map _).nodup_iff.mpr hnd) (hpv.mem_iff.mpr hr)]
  simp

def rowsScenario : List GexRow :=
  [⟨2000, 100, 50, 0, 0, 0, 0⟩, ⟨2100, 80, 60, 0, 0, 0, 0⟩,
   ⟨1900, -120, -40, 0, 0, 0, 0⟩, ⟨1800, -50, -90, 0, 0, 0, 0⟩]

/-- Claim C1: for every row set (with pairwise-distinct strikes, as the
per-strike exposure rows of a snapshot are), the level selector ranks the
positive-regime rows by each exposure descending, scores them with
`2*oiRank + 1*volRank`, sorts ascending by score tie-breaking by oiRank
then volRank, and labels the top two R1/R2 (negative regime symmetrically
ascending, S1/S2) — i.e. the code equals the spec-worded selector — and on
the scenario rows it produces R1=2000, R2=2100, S1=1900, S2=1800. -/
theorem levelSelector_matches_spec :
    (∀ rows : List GexRow, (rows.map (·.strike)).Nodup →
      pickLinesByRaw rows = levelSelectorSpec rows) ∧
    (computeLevels rowsScenario).1 = some 2000 ∧
    (computeLevels rowsScenario).2.1 = some 2100 ∧
    (computeLevels rowsScenario).2.2.1 = some 1900 ∧
    (computeLevels rowsScenario).2.2.2.1 = some 1800 := by
  refine ⟨?_, by decide, by decide, by decide, by decide⟩
  intro rows hnd
  have hval : ((validRows rows).map (·.strike)).Nodup := by
    unfold validRows
    exact nodup_strikes_filter hnd
  simp only [pickLinesByRaw, levelSelectorSpec, posRegime, negRegime]
  rw [scoreRegime_eq_spec _ _ (nodup_strikes_filter hval),
    scoreRegime_eq_spec _ _ (nodup_strikes_filter hval)]

/-- Witness for C1 at the scenario input: the distinct-strikes hypothesis
holds there and the selector agrees with the spec-worded selector. -/
theorem levelSelector_matches_spec_witness :
    pickLinesByRaw rowsScenario = levelSelectorSpec rowsScenario :=
  levelSelector_matches_spec.1 rowsScenario (by decide)

/-! ### C2: rows with both exposures zero and the selected levels -/

theorem mem_redMarks_strike {scored : List ScoredRow} {m : LineMark}
    (h : m ∈ redMarks scored) : ∃ a ∈ scored, m.strike = a.strike := by
  have hperm := sortLe_perm scoredLe scored
  unfold redMarks at h
  cases hL : sortLe scoredLe scored with
  | nil => rw [hL] at h; simp at h
  | cons a t =>
    rw [hL] at hperm
    cases t with
    | nil =>
      rw [hL] at h
      simp only [List.mem_singleton] at h
      subst h
      exact ⟨a, hperm.mem_iff.mp (by simp), rfl⟩
    | cons b u =>
      rw [hL] at h
      rcases List.mem_cons.mp h with rfl | h
      · exact ⟨a, hperm.mem_iff.mp (by simp), rfl⟩
      · rcases List.mem_cons.mp h with rfl | h
        · exact ⟨b, hperm.mem_iff.mp (by simp), rfl⟩
        · simp at h

theorem mem_greenMarks_strike {scored : List ScoredRow} {m : LineMark}
    (h : m ∈ greenMarks scored) : ∃ a ∈ scored, m.strike = a.strike := by
  have hperm := sortLe_perm scoredLe scored
  unfold greenMarks at h
  cases hL : sortLe scoredLe scored with
  | nil => rw [hL] at h; simp at h
  | cons a t =>
    rw [hL] at hperm
    cases t with
    | nil =>
      rw [hL] at h
      simp only [List.mem_singleton] at h
      subst h
      exact ⟨a, hperm.mem_iff.mp (by simp), rfl⟩
    | cons b u =>
      rw [hL] at h
      rcases List.mem_cons.mp h with rfl | h
      · exact ⟨a, hperm.mem_iff.mp (by simp), rfl⟩
      · rcases List.mem_cons.mp h with rfl | h
        · exact ⟨b, hperm.mem_iff.mp (by simp), rfl⟩
        · simp at h

theorem mem_scoreRegime_strike {regime : List GexRow} {desc : Bool} {a : ScoredRow}
    (h : a ∈ scoreRegime regime desc) : ∃ r ∈ regime, a.strike = r.strike := by
  simp only [scoreRegime, List.mem_map] at h
  rcases h with ⟨r, hr, rfl⟩
  exact ⟨r, hr, rfl⟩

/-- Claim C2 (amended): a row with both exposures exactly zero is never
selected as R1, R2, S1 or S2 — every red mark's strike belongs to a row
with both exposures strictly positive, every green mark's strike to a row
with both strictly negative.  (The Flip level is NOT covered: see the
counterexample, `pickZeroGammaStrike` only filters non-finite rows.) -/
theorem zeroRow_never_R_S (rows : List GexRow) (m : LineMark) :
    (m ∈ (pickLinesByRaw rows).1 →
      ∃ r ∈ rows, r.strike = m.strike ∧ 0 < r.gex_oi_raw ∧ 0 < r.gex_vol_raw) ∧
    (m ∈ (pickLinesByRaw rows).2 →
      ∃ r ∈ rows, r.strike = m.strike ∧ r.gex_oi_raw < 0 ∧ r.gex_vol_raw < 0) := by
  constructor
  · intro h
    simp only [pickLinesByRaw, posRegime, validRows] at h
    by_cases hemp : (List.filter posFilter (List.filter
        (fun r => !(r.gex_oi_raw == 0 && r.gex_vol_raw == 0)) rows)).isEmpty
    · rw [if_pos hemp] at h; simp at h
    · rw [if_neg hemp] at h
      rcases mem_redMarks_strike h with ⟨a, ha, hstr⟩
      rcases mem_scoreRegime_strike ha with ⟨r, hr, hstr2⟩
      rcases List.mem_filter.mp hr with ⟨hrv, hrp⟩
      refine ⟨r, List.mem_of_mem_filter hrv, (hstr.trans hstr2).symm, ?_⟩
      simpa [posFilter] using hrp
  · intro h
    simp only [pickLinesByRaw, negRegime, validRows] at h
    by_cases hemp : (List.filter negFilter (List.filter
        (fun r => !(r.gex_oi_raw == 0 && r.gex_vol_raw == 0)) rows)).isEmpty
    · rw [if_pos hemp] at h; simp at h
    · rw [if_neg hemp] at h
      rcases mem_greenMarks_strike h with ⟨a, ha, hstr⟩
      rcases mem_scoreRegime_strike ha with ⟨r, hr, hstr2⟩
      rcases List.mem_filter.mp hr with ⟨hrv, hrp⟩
      refine ⟨r, List.mem_of_mem_filter hrv, (hstr.trans hstr2).symm, ?_⟩
      simpa [negFilter] using hrp

def rowsZeroFlip : List GexRow :=
  [⟨100, 100, 1, 0, 0, 0, 0⟩, ⟨300, -100, -1, 0, 0, 0, 0⟩,
   ⟨200, 0, 0, 0, 0, 0, 0⟩, ⟨150, 50, -2, 0, 0, 0, 0⟩]

/-- Counterexample to claim C2 as stated: on `rowsZeroFlip` the row at
strike 200 has both exposures exactly zero, yet the Flip level selects it
(`pickZeroGammaStrike` keeps both-zero rows, and |oi| = 0 ranks first). -/
theorem zeroRow_flip_counterexample :
    (⟨200, 0, 0, 0, 0, 0, 0⟩ : GexRow) ∈ rowsZeroFlip ∧
    (computeLevels rowsZeroFlip).2.2.2.2 = some 200 := by decide

/-- Witness for C2 (amended) at a concrete input. -/
theorem zeroRow_never_R_S_witness :
    (⟨100, "R1", "#ef4444", "ce"⟩ : LineMark) ∈ (pickLinesByRaw rowsZeroFlip).1 ∧
    ∃ r ∈ rowsZeroFlip, r.strike = 100 ∧ 0 < r.gex_oi_raw ∧ 0 < r.gex_vol_raw :=
  ⟨by decide,
    (zeroRow_never_R_S rowsZeroFlip ⟨100, "R1", "#ef4444", "ce"⟩).1 (by decide)⟩

/-! ### C3: order (in)dependence of the level selector -/

theorem keyCmp_total (key : GexRow → Int) (desc : Bool) :
    ∀ a b, keyCmp key desc a b = true ∨ keyCmp key desc b a = true := by
  intro a b
  cases desc <;> simp [keyCmp] <;> omega

theorem keyCmp_trans (key : GexRow → Int) (desc : Bool) :
    ∀ a b c, keyCmp key desc a b = true → keyCmp key desc b c = true →
      keyCmp key desc a c = true := by
  intro a b c
  cases desc <;> simp [keyCmp] <;> omega

theorem scoredLe_total : ∀ a b, scoredLe a b = true ∨ scoredLe b a = true := by
  intro a b
  simp only [scoredLe, decide_eq_true_eq]
  omega

theorem scoredLe_trans :
    ∀ a b c, scoredLe a b = true → scoredLe b c = true → scoredLe a c = true := by
  intro a b c
  simp only [scoredLe, decide_eq_true_eq]
  omega

theorem scoredLe_antisymm_fields {a b : ScoredRow}
    (h₁ : scoredLe a b = true) (h₂ : scoredLe b a = true) :
    a.score = b.score ∧ a.oiR = b.oiR ∧ a.volR = b.volR := by
  simp only [scoredLe, decide_eq_true_eq] at h₁ h₂
  omega

/-- Two permuted lists with pairwise-distinct sort keys sort to the same
list (the stable sort cannot depend on the input order when the comparator
never ties). -/
theorem sortLe_eq_of_perm_keyNodup {key : GexRow → Int} {desc : Bool}
    {l₁ l₂ : List GexRow} (hp : l₁.Perm l₂)
    (hnd : (l₂.map key).Nodup) :
    sortLe (keyCmp key desc) l₁ = sortLe (keyCmp key desc) l₂ := by
  apply sorted_perm_eq
  · exact (sortLe_perm _ l₁).trans (hp.trans (sortLe_perm _ l₂).symm)
  · exact pairwise_sortLe (keyCmp_total key desc) (keyCmp_trans key desc) l₁
  · exact pairwise_sortLe (keyCmp_total key desc) (keyCmp_trans key desc) l₂
  · intro a ha b hb h₁ h₂
    have hamem : a ∈ l₂ := hp.mem_iff.mp ((sortLe_perm _ l₁).mem_iff.mp ha)
    have hbmem : b ∈ l₂ := hp.mem_iff.mp ((sortLe_perm _ l₁).mem_iff.mp hb)
    have hkey : key a = key b := by
      cases desc <;> simp [keyCmp] at h₁ h₂ <;> omega
    exact List.inj_on_of_nodup_map hnd hamem hbmem hkey

theorem perm_isEmpty {α : Type _} {l₁ l₂ : List α} (h : l₁.Perm l₂) :
    l₁.isEmpty = l₂.isEmpty := by
  have := h.length_eq
  cases l₁ <;> cases l₂ <;> simp_all

theorem redMarks_congr {s₁ s₂ : List ScoredRow}
    (h : sortLe scoredLe s₁ = sortLe scoredLe s₂) : redMarks s₁ = redMarks s₂ := by
  unfold redMarks
  rw [h]

theorem greenMarks_congr {s₁ s₂ : List ScoredRow}
    (h : sortLe scoredLe s₁ = sortLe scoredLe s₂) : greenMarks s₁ = greenMarks s₂ := by
  unfold greenMarks
  rw [h]

/-- Core of the amended C3: for one regime, if the strikes and both
exposure keys are pairwise distinct, a permutation of the regime produces
the same sorted scored list. -/
theorem sorted_scoreRegime_eq_of_perm {l₁ l₂ : List GexRow} {desc : Bool}
    (hp : l₁.Perm l₂)
    (hnd : (l₂.map (·.strike)).Nodup)
    (hoi : (l₂.map (·.gex_oi_raw)).Nodup)
    (hvol : (l₂.map (·.gex_vol_raw)).Nodup) :
    sortLe scoredLe (scoreRegime l₁ desc) = sortLe scoredLe (scoreRegime l₂ desc) := by
  have hso : sortLe (keyCmp (·.gex_oi_raw) desc) l₁ = sortLe (keyCmp (·.gex_oi_raw) desc) l₂ :=
    sortLe_eq_of_perm_keyNodup hp hoi
  have hsv : sortLe (keyCmp (·.gex_vol_raw) desc) l₁ = sortLe (keyCmp (·.gex_vol_raw) desc) l₂ :=
    sortLe_eq_of_perm_keyNodup hp hvol
  have hfun : scoreFun l₁ desc = scoreFun l₂ desc := by
    funext r
    simp only [scoreFun, rankMap, hso, hsv]
  have hscored : (scoreRegime l₁ desc).Perm (scoreRegime l₂ desc) := by
    unfold scoreRegime
    rw [hfun]
    exact hp.map _
  -- the per-strike rank in the oi-sorted list, needed for antisymmetry
  have hnd₂ : ((sortLe (keyCmp (·.gex_oi_raw) desc) l₂).map (·.strike)).Nodup :=
    ((sortLe_perm _ l₂).map _).nodup_iff.mpr hnd
  apply sorted_perm_eq
  · exact (sortLe_perm scoredLe _).trans (hscored.trans (sortLe_perm scoredLe _).symm)
  · exact pairwise_sortLe scoredLe_total scoredLe_trans _
  · exact pairwise_sortLe scoredLe_total scoredLe_trans _
  · intro a ha b hb h₁ h₂
    have hamem : a ∈ scoreRegime l₂ desc :=
      hscored.mem_iff.mp ((sortLe_perm scoredLe _).mem_iff.mp ha)
    have hbmem : b ∈ scoreRegime l₂ desc :=
      hscored.mem_iff.mp ((sortLe_perm scoredLe _).mem_iff.mp hb)
    simp only [scoreRegime, List.mem_map] at hamem hbmem
    rcases hamem with ⟨ra, hra, rfl⟩
    rcases hbmem with ⟨rb, hrb, rfl⟩
    rcases scoredLe_antisymm_fields h₁ h₂ with ⟨_, hoiR, _⟩
    have hra' : ra ∈ sortLe (keyCmp (·.gex_oi_raw) desc) l₂ :=
      (sortLe_perm _ l₂).mem_iff.mpr hra
    have hrb' : rb ∈ sortLe (keyCmp (·.gex_oi_raw) desc) l₂ :=
      (sortLe_perm _ l₂).mem_iff.mpr hrb
    have hga := rankGet_eq_rowRankAux (i := 1) hnd₂ hra'
    have hgb := rankGet_eq_rowRankAux (i := 1) hnd₂ hrb'
    have hoiR' : rowRankAux (sortLe (keyCmp (·.gex_oi_raw) desc) l₂) ra 1
        = rowRankAux (sortLe (keyCmp (·.gex_oi_raw) desc) l₂) rb 1 := by
      simp only [scoreFun, rankMap] at hoiR
      rw [hga, hgb] at hoiR
      simpa using hoiR
    have hstrike : ra.strike = rb.strike := by
      apply rankGet_inj (l := sortLe (keyCmp (·.gex_oi_raw) desc) l₂)
        (i := 1) (v := rowRankAux (sortLe (keyCmp (·.gex_oi_raw) desc) l₂) rb 1)
      · rw [hga, hoiR']
      · exact hgb
    have : ra = rb := List.inj_on_of_nodup_map hnd hra hrb hstrike
    rw [this]

/-- Claim C3 (amended): the level selector is order-independent whenever
its ranking never ties — pairwise-distinct strikes and, within each
regime, pairwise-distinct openInterestExposure values and volumeExposure
values.  (With tied values the stable sorts make the result depend on the
input order: see the counterexample.) -/
theorem levelSelector_perm_invariant (rows rows' : List GexRow)
    (hp : rows'.Perm rows)
    (hnd : (rows.map (·.strike)).Nodup)
    (hoiP : ((posRegime rows).map (·.gex_oi_raw)).Nodup)
    (hvolP : ((posRegime rows).map (·.gex_vol_raw)).Nodup)
    (hoiN : ((negRegime rows).map (·.gex_oi_raw)).Nodup)
    (hvolN : ((negRegime rows).map (·.gex_vol_raw)).Nodup) :
    pickLinesByRaw rows' = pickLinesByRaw rows := by
  have hval : (validRows rows').Perm (validRows rows) := hp.filter _
  have hpos : (posRegime rows').Perm (posRegime rows) := hval.filter _
  have hneg : (negRegime rows').Perm (negRegime rows) := hval.filter _
  have hndP : ((posRegime rows).map (·.strike)).Nodup := by
    have hv : ((validRows rows).map (·.strike)).Nodup := by
      unfold validRows; exact nodup_strikes_filter hnd
    unfold posRegime; exact nodup_strikes_filter hv
  have hndN : ((negRegime rows).map (·.strike)).Nodup := by
    have hv : ((validRows rows).map (·.strike)).Nodup := by
      unfold validRows; exact nodup_strikes_filter hnd
    unfold negRegime; exact nodup_strikes_filter hv
  simp only [pickLinesByRaw]
  rw [perm_isEmpty hpos, perm_isEmpty hneg,
    redMarks_congr (sorted_scoreRegime_eq_of_perm hpos hndP hoiP hvolP),
    greenMarks_congr (sorted_scoreRegime_eq_of_perm hneg hndN hoiN hvolN)]

def rowsTie : List GexRow := [⟨100, 5, 1, 0, 0, 0, 0⟩, ⟨200, 5, 2, 0, 0, 0, 0⟩]
def rowsTieSwapped : List GexRow := [⟨200, 5, 2, 0, 0, 0, 0⟩, ⟨100, 5, 1, 0, 0, 0, 0⟩]

/-- Counterexample to claim C3 as stated: the two rows tie on
openInterestExposure, and swapping their order swaps which strike becomes
R1 (`[100,200]` gives R1=100, `[200,100]` gives R1=200). -/
theorem levelSelector_perm_counterexample :
    rowsTieSwapped.Perm rowsTie ∧
    pickLinesByRaw rowsTieSwapped ≠ pickLinesByRaw rowsTie ∧
    ((pickLinesByRaw rowsTie).1.find? (fun l => l.label == "R1")).map (·.strike)
      = some 100 ∧
    ((pickLinesByRaw rowsTieSwapped).1.find? (fun l => l.label == "R1")).map (·.strike)
      = some 200 := by
  refine ⟨List.Perm.swap _ _ _, by decide, by decide, by decide⟩

/-- Witness for C3 (amended) at a concrete input with distinct values. -/
theorem levelSelector_perm_invariant_witness :
    pickLinesByRaw [⟨2100, 80, 60, 0, 0, 0, 0⟩, ⟨2000, 100, 50, 0, 0, 0, 0⟩] =
    pickLinesByRaw [⟨2000, 100, 50, 0, 0, 0, 0⟩, ⟨2100, 80, 60, 0, 0, 0, 0⟩] :=
  levelSelector_perm_invariant _ _ (List.Perm.swap _ _ _)
    (by decide) (by decide) (by decide) (by decide) (by decide)

/-! ### C4: snapshot persistence and duplicate-key handling
(`computeAndSaveSnapshot` lines 317–326 of `src/gexLevelsCalc.ts` and
`saveAdvDecSnapshot` lines 148–155 of `src/advdecSave.ts`).

The store itself is an external collaborator (MongoDB with a unique index
on the dedup key); it is modelled as the list of dedup keys already
persisted, with `insertOne` failing with error code 11000 exactly when the
key is already present. -/

/-- The catch logic shared by both save sites: a successful insert reports
`saved = true`; an error with `code === 11000` is swallowed and reports
`saved = false`; any other error is re-thrown. -/
def snapshotSaveResult (r : Except Int Unit) : Except Int Bool :=
  match r with
  | .ok _ => .ok true
  | .error code => if code = 11000 then .ok false else .error code

/-- Environment model of the store's unique-index `insertOne`. -/
def insertOne {α : Type _} [DecidableEq α] (keys : List α) (k : α) :
    Except Int (List α) :=
  if k ∈ keys then .error 11000 else .ok (k :: keys)

/-- One save call against the modelled store: the new key list plus the
reported `saved` flag (duplicate-key errors swallowed, others re-raised). -/
def saveSnapshotKey {α : Type _} [DecidableEq α] (keys : List α) (k : α) :
    Except Int (List α × Bool) :=
  match insertOne keys k with
  | .ok keys2 => .ok (keys2, true)
  | .error code => if code = 11000 then .ok (keys, false) else .error code

/-- Run a sequence of save calls (dedup keys) against the modelled store,
collecting the reported `saved` flags. -/
def runSaves {α : Type _} [DecidableEq α] : List α → List α → List α × List Bool
  | keys, [] => (keys, [])
  | keys, k :: ks =>
    match saveSnapshotKey keys k with
    | .ok (keys2, saved) =>
      let rest := runSaves keys2 ks
      (rest.1, saved :: rest.2)
    | .error _ => (keys, [])

theorem runSaves_nodup {α : Type _} [DecidableEq α] :
    ∀ (ops : List α) (keys : List α), keys.Nodup → (runSaves keys ops).1.Nodup := by
  intro ops
  induction ops with
  | nil => intro keys h; exact h
  | cons k ks ih =>
    intro keys h
    by_cases hk : k ∈ keys
    · simp only [runSaves, saveSnapshotKey, insertOne, if_pos hk]
      exact ih keys h
    · simp only [runSaves, saveSnapshotKey, insertOne, if_neg hk]
      exact ih (k :: keys) (List.nodup_cons.mpr ⟨hk, h⟩)

/-- Claim C4: a duplicate-key conflict (code 11000) is swallowed and
reported as `saved = false`; every other persistence error is re-raised; a
first write on a fresh key succeeds with `saved = true`; a colliding write
leaves the store unchanged; and any sequence of saves keeps at most one
record per dedup key. -/
theorem snapshotSave_dedup {α : Type _} [DecidableEq α] :
    snapshotSaveResult (.error 11000) = .ok false ∧
    (∀ c : Int, c ≠ 11000 → snapshotSaveResult (.error c) = .error c) ∧
    snapshotSaveResult (.ok ()) = .ok true ∧
    (∀ (keys : List α) (k : α), k ∉ keys →
      saveSnapshotKey keys k = .ok (k :: keys, true)) ∧
    (∀ (keys : List α) (k : α), k ∈ keys →
      saveSnapshotKey keys k = .ok (keys, false)) ∧
    (∀ (ops keys : List α), keys.Nodup → (runSaves keys ops).1.Nodup) := by
  refine ⟨rfl, ?_, rfl, ?_, ?_, ?_⟩
  · intro c hc
    simp [snapshotSaveResult, hc]
  · intro keys k hk
    simp [saveSnapshotKey, insertOne, hk]
  · intro keys k hk
    simp [saveSnapshotKey, insertOne, hk]
  · exact fun ops keys h => runSaves_nodup ops keys h

/-- Witness for C4 over `Nat` dedup keys: the first write on key 7 reports
`saved = true`, the retry reports `saved = false`, a non-duplicate error
code 5 is re-raised, and the store stays duplicate-free. -/
theorem snapshotSave_dedup_witness :
    saveSnapshotKey ([] : List Nat) 7 = .ok ([7], true) ∧
    saveSnapshotKey [7] 7 = .ok ([7], false) ∧
    snapshotSaveResult (.error 5) = .error 5 ∧
    (runSaves ([] : List Nat) [7, 7, 3]).1.Nodup :=
  ⟨(snapshotSave_dedup (α := Nat)).2.2.2.1 [] 7 (by decide),
   (snapshotSave_dedup (α := Nat)).2.2.2.2.1 [7] 7 (by decide),
   (snapshotSave_dedup (α := Nat)).2.1 5 (by decide),
   (snapshotSave_dedup (α := Nat)).2.2.2.2.2 [7, 7, 3] [] (by decide)⟩

/-! ### C5: the upstream retry policies (`ocRetry` of `src/option_chain.ts`
lines 65–88 and `quoteRetry` of `src/quote.service.ts` lines 54–72).

An attempt (one `scheduleOC(fn)` / `scheduleQuote(fn)` call through the
pacing gate) either succeeds with a value or fails; a failure is
identified by its HTTP status `e?.response?.status` (`none` when the
error carries no response status).  `f i` is the outcome of the i-th
attempt; the second component of the result is the list of back-off waits
performed (in ms). -/

inductive Att (T : Type _) where
  | succ (t : T)
  | fail (status : Option Int)

/-- `s === 429 || (s >= 500 && s < 600)`; JS comparisons on `undefined`
are false, hence `none ↦ false`. -/
def retryableStatus (st : Option Int) : Bool :=
  match st with
  | some s => s == 429 || (decide (500 ≤ s) && decide (s < 600))
  | none => false

/-- `Math.min(15000, 1000 * (1 << i))` — exponential back-off of `ocRetry`. -/
def ocWait (i : Nat) : Nat := min 15000 (1000 * 2 ^ i)

/-- `Math.min(8000, 1000 * (i + 1))` — linear back-off of `quoteRetry`. -/
def quoteWait (i : Nat) : Nat := min 8000 (1000 * (i + 1))

/-- The `for` loop of `ocRetry`: `i` is the current attempt index, the
fuel is the number of attempts left, `last` identifies `lastErr`
(irrelevant at the initial call — every call site uses ≥ 3 tries).
A 401 aborts immediately; 429/5xx waits `ocWait i` and continues; any
other error aborts; exhaustion re-raises the last error. -/
def ocRetryGo {T : Type _} (f : Nat → Att T) :
    Nat → Nat → Option Int → Except (Option Int) T × List Nat
  | _, 0, last => (.error last, [])
  | i, fuel + 1, _ =>
    match f i with
    | .succ t => (.ok t, [])
    | .fail st =>
      if st = some 401 then (.error st, [])
      else if retryableStatus st then
        let rest := ocRetryGo f (i + 1) fuel st
        (rest.1, ocWait i :: rest.2)
      else (.error st, [])

/-- `ocRetry(fn, tries)`. -/
def ocRetry {T : Type _} (tries : Nat) (f : Nat → Att T) :
    Except (Option Int) T × List Nat :=
  ocRetryGo f 0 tries none

/-- The `for` loop of `quoteRetry`: same shape but linear waits and no
explicit 401 branch (401 is simply not retryable, so it also aborts
immediately). -/
def quoteRetryGo {T : Type _} (f : Nat → Att T) :
    Nat → Nat → Option Int → Except (Option Int) T × List Nat
  | _, 0, last => (.error last, [])
  | i, fuel + 1, _ =>
    match f i with
    | .succ t => (.ok t, [])
    | .fail st =>
      if retryableStatus st then
        let rest := quoteRetryGo f (i + 1) fuel st
        (rest.1, quoteWait i :: rest.2)
      else (.error st, [])

/-- `quoteRetry(fn, tries)` (call sites use `tries = 3`). -/
def quoteRetry {T : Type _} (tries : Nat) (f : Nat → Att T) :
    Except (Option Int) T × List Nat :=
  quoteRetryGo f 0 tries none

theorem ocRetryGo_const_fail {T : Type _} (s : Int)
    (hs : retryableStatus (some s) = true) :
    ∀ (fuel i : Nat) (last : Option Int),
      ocRetryGo (fun _ => (Att.fail (some s) : Att T)) i fuel last =
        (.error (if fuel = 0 then last else some s),
         (List.range' i fuel).map ocWait) := by
  intro fuel
  induction fuel with
  | zero => intro i last; simp [ocRetryGo, List.range']
  | succ n ih =>
    intro i last
    have h401 : ¬ ((some s : Option Int) = some 401) := by
      intro h
      rw [h] at hs
      simp [retryableStatus] at hs
    have hstep : List.range' i (n + 1) = i :: List.range' (i + 1) n := rfl
    simp only [ocRetryGo, if_neg h401, if_pos hs, hstep, List.map_cons]
    rw [ih (i + 1) (some s)]
    cases n <;> simp

theorem quoteRetryGo_const_fail {T : Type _} (s : Int)
    (hs : retryableStatus (some s) = true) :
    ∀ (fuel i : Nat) (last : Option Int),
      quoteRetryGo (fun _ => (Att.fail (some s) : Att T)) i fuel last =
        (.error (if fuel = 0 then last else some s),
         (List.range' i fuel).map quoteWait) := by
  intro fuel
  induction fuel with
  | zero => intro i last; simp [quoteRetryGo, List.range']
  | succ n ih =>
    intro i last
    have hstep : List.range' i (n + 1) = i :: List.range' (i + 1) n := rfl
    simp only [quoteRetryGo, if_pos hs, hstep, List.map_cons]
    rw [ih (i + 1) (some s)]
    cases n <;> simp

/-- Counterexample to claim C5 as stated: `quoteRetry` backs off
linearly, not exponentially — on three consecutive 503 failures it waits
1000, 2000, 3000 ms, whereas `min(capMs, baseMs * 2^attempt)` with its
cap 8000 and base 1000 would wait 4000 ms at attempt 2. -/
theorem quoteRetry_backoff_counterexample :
    (quoteRetry 3 (fun _ => (Att.fail (some 503) : Att Unit))).2
      = [1000, 2000, 3000] ∧
    quoteWait 2 = 3000 ∧
    min 8000 (1000 * 2 ^ 2) = 4000 ∧
    (3000 : Nat) ≠ 4000 := by
  refine ⟨?_, by decide, by decide, by decide⟩
  rw [quoteRetry, quoteRetryGo_const_fail 503 (by decide)]
  decide

/-- Claim C5 (amended): both retry wrappers abort immediately on HTTP 401
and on any other non-retryable error, surface the error; a 429/5xx
failure waits (`ocRetry`: `min(15000, 1000*2^i)`, exponential;
`quoteRetry`: `min(8000, 1000*(i+1))`, linear) and retries; call sites
use 3 or 4 attempts; and when every attempt fails retryably the last
error is raised after the full wait sequence. -/
theorem retryPolicy_behaviour :
    (∀ (T : Type) (f : Nat → Att T) (i fuel : Nat) (last : Option Int),
      f i = Att.fail (some 401) →
      ocRetryGo f i (fuel + 1) last = (.error (some 401), [])) ∧
    (∀ (T : Type) (f : Nat → Att T) (i fuel : Nat) (last : Option Int),
      f i = Att.fail (some 401) →
      quoteRetryGo f i (fuel + 1) last = (.error (some 401), [])) ∧
    (∀ (T : Type) (f : Nat → Att T) (i fuel : Nat) (last : Option Int) (t : T),
      f i = Att.succ t → ocRetryGo f i (fuel + 1) last = (.ok t, [])) ∧
    (∀ (T : Type) (f : Nat → Att T) (i fuel : Nat) (last : Option Int) (st : Option Int),
      f i = Att.fail st → retryableStatus st = false → st ≠ some 401 →
      ocRetryGo f i (fuel + 1) last = (.error st, [])) ∧
    (∀ (T : Type) (f : Nat → Att T) (i fuel : Nat) (last : Option Int) (st : Option Int),
      f i = Att.fail st → retryableStatus st = false →
      quoteRetryGo f i (fuel + 1) last = (.error st, [])) ∧
    (∀ (T : Type) (f : Nat → Att T) (i fuel : Nat) (last : Option Int) (st : Option Int),
      f i = Att.fail st → retryableStatus st = true → st ≠ some 401 →
      ocRetryGo f i (fuel + 1) last =
        ((ocRetryGo f (i + 1) fuel st).1, ocWait i :: (ocRetryGo f (i + 1) fuel st).2)) ∧
    (∀ (s : Int) (n : Nat), retryableStatus (some s) = true → 1 ≤ n →
      ocRetry n (fun _ => (Att.fail (some s) : Att Unit)) =
        (.error (some s), (List.range n).map ocWait)) ∧
    (∀ (s : Int) (n : Nat), retryableStatus (some s) = true → 1 ≤ n →
      quoteRetry n (fun _ => (Att.fail (some s) : Att Unit)) =
        (.error (some s), (List.range n).map quoteWait)) ∧
    (∀ i, ocWait i = min 15000 (1000 * 2 ^ i)) ∧
    (∀ i, quoteWait i = min 8000 (1000 * (i + 1))) := by
  refine ⟨?_, ?_, ?_, ?_, ?_, ?_, ?_, ?_, fun _ => rfl, fun _ => rfl⟩
  · intro T f i fuel last hf
    simp [ocRetryGo, hf]
  · intro T f i fuel last hf
    simp [quoteRetryGo, hf, retryableStatus]
  · intro T f i fuel last t hf
    simp [ocRetryGo, hf]
  · intro T f i fuel last st hf hret h401
    simp [ocRetryGo, hf, hret, h401]
  · intro T f i fuel last st hf hret
    simp [quoteRetryGo, hf, hret]
  · intro T f i fuel last st hf hret h401
    simp [ocRetryGo, hf, hret, h401]
  · intro s n hs hn
    rw [ocRetry, ocRetryGo_const_fail s hs, List.range_eq_range']
    cases n
    · omega
    · simp
  · intro s n hs hn
    rw [quoteRetry, quoteRetryGo_const_fail s hs, List.range_eq_range']
    cases n
    · omega
    · simp

/-- Witness for C5 (amended) at concrete inputs. -/
theorem retryPolicy_behaviour_witness :
    ocRetryGo (fun _ => (Att.fail (some 401) : Att Unit)) 0 4 none
      = (.error (some 401), []) ∧
    ocRetry 4 (fun _ => (Att.fail (some 503) : Att Unit))
      = (.error (some 503), [1000, 2000, 4000, 8000]) ∧
    quoteRetry 3 (fun _ => (Att.fail (some 429) : Att Unit))
      = (.error (some 429), [1000, 2000, 3000]) := by
  refine ⟨?_, ?_, ?_⟩
  · exact retryPolicy_behaviour.1 Unit _ 0 3 none rfl
  · have h := retryPolicy_behaviour.2.2.2.2.2.2.1 503 4 (by decide) (by decide)
    rw [h]
    rfl
  · have h := retryPolicy_behaviour.2.2.2.2.2.2.2.1 429 3 (by decide) (by decide)
    rw [h]
    rfl

/-! ### C6: the market-open tests.

An instant is modelled as `t : Int` minutes since the Unix epoch.  A civil
decomposition at UTC offset `offsetMin` gives minutes-since-midnight
`(t + offsetMin) mod 1440` and the JS `getDay()` weekday index
`((t + offsetMin) div 1440 + 4) mod 7` (0 = Sunday … 6 = Saturday; epoch
day 0 was a Thursday).

`isMarketOpenIst` (src/gexLevelsCalc.ts lines 187–192, identical copy in
src/advdecSave.ts) decomposes the instant with
`Intl.DateTimeFormat(..., timeZone: "Asia/Kolkata")`, i.e. at the fixed
IST offset +330, whatever the host timezone.  `isMarketOpen`
(src/app.ts lines 51–58, same pattern in src/quote.service.ts) calls
`getDay()/getHours()/getMinutes()` on a plain `new Date()`, i.e. at the
HOST's offset, despite the `getISTDate` name and comments. -/

def istOffsetMin : Int := 330

def localMinutesOfDay (offsetMin t : Int) : Int := (t + offsetMin).emod 1440

def localWeekday (offsetMin t : Int) : Int :=
  ((t + offsetMin).ediv 1440 + 4).emod 7

def MARKET_START_MIN : Int := 9 * 60 + 15
def MARKET_END_MIN : Int := 15 * 60 + 30

/-- `isMarketOpenIst` of `src/gexLevelsCalc.ts`: weekday not Sat (6) and
not Sun (0), and minutes-of-day in [09:15, 15:30], all at IST. -/
def isMarketOpenIst (t : Int) : Bool :=
  (decide (localWeekday istOffsetMin t ≠ 6) &&
    decide (localWeekday istOffsetMin t ≠ 0)) &&
  (decide (MARKET_START_MIN ≤ localMinutesOfDay istOffsetMin t) &&
    decide (localMinutesOfDay istOffsetMin t ≤ MARKET_END_MIN))

/-- `isMarketOpen` of `src/app.ts`: same window test, but decomposed at
the host's UTC offset (a plain `Date` with `getDay`/`getHours`). -/
def isMarketOpen (hostOffsetMin t : Int) : Bool :=
  if localWeekday hostOffsetMin t = 0 || localWeekday hostOffsetMin t = 6 then false
  else
    decide (9 * 60 + 15 ≤ localMinutesOfDay hostOffsetMin t) &&
    decide (localMinutesOfDay hostOffsetMin t ≤ 15 * 60 + 30)

/-- Claim C6: `isMarketOpenIst` is true iff the IST weekday is Mon–Fri
(index 1..5) and the IST minutes-of-day lie in [555, 930] — but the
`app.ts` test uses the HOST clock: at epoch minute 6060 (Monday
1970-01-05 05:00 UTC = Monday 10:30 IST, market open) a host at UTC
offset 0 reports the market closed. -/
theorem marketOpen_ist_iff_and_host_divergence :
    (∀ t : Int, isMarketOpenIst t = true ↔
      (1 ≤ localWeekday istOffsetMin t ∧ localWeekday istOffsetMin t ≤ 5 ∧
       555 ≤ localMinutesOfDay istOffsetMin t ∧
       localMinutesOfDay istOffsetMin t ≤ 930)) ∧
    isMarketOpenIst 6060 = true ∧
    isMarketOpen 0 6060 = false ∧
    localWeekday istOffsetMin 6060 = 1 ∧
    localMinutesOfDay istOffsetMin 6060 = 630 := by
  refine ⟨?_, by decide, by decide, by decide, by decide⟩
  intro t
  have h1 : 0 ≤ localWeekday istOffsetMin t :=
    Int.emod_nonneg _ (by decide)
  have h2 : localWeekday istOffsetMin t < 7 :=
    Int.emod_lt_of_pos _ (by decide)
  simp only [isMarketOpenIst, MARKET_START_MIN, MARKET_END_MIN,
    Bool.and_eq_true, decide_eq_true_eq, ne_eq]
  omega

/-! ### C7: the per-feed backoff counter of the option-chain watcher
(`src/app.ts`: `MAX_BACKOFF_STEPS = 12`; line 285 decrements on success,
lines 320–321 increment on a retryable failure). -/

def MAX_BACKOFF_STEPS : Int := 12

inductive TickOutcome where
  | success
  | failure (status : Option Int)
deriving DecidableEq, Repr

/-- How one tick updates `backoffSteps`:
success → `if (backoffSteps > 0) backoffSteps = Math.max(0, backoffSteps - 1)`;
failure → `if (status === 429 || (status >= 500 && status < 600))
backoffSteps = Math.min(MAX_BACKOFF_STEPS, backoffSteps + 1)`. -/
def updateBackoff (b : Int) : TickOutcome → Int
  | .success => if b > 0 then max 0 (b - 1) else b
  | .failure st => if retryableStatus st then min MAX_BACKOFF_STEPS (b + 1) else b

/-- Claim C7: `backoffSteps` stays within [0, MAX_BACKOFF_STEPS]; a
retryable (429/5xx) failure increments it clamped at the max; a success
decrements it floored at zero; three consecutive 503 ticks from zero give
3, and one further success gives 2. -/
theorem backoffSteps_invariant :
    (∀ (b : Int) (o : TickOutcome), 0 ≤ b → b ≤ MAX_BACKOFF_STEPS →
      0 ≤ updateBackoff b o ∧ updateBackoff b o ≤ MAX_BACKOFF_STEPS) ∧
    (∀ (b : Int) (st : Option Int), retryableStatus st = true →
      updateBackoff b (.failure st) = min MAX_BACKOFF_STEPS (b + 1)) ∧
    (∀ (b : Int) (st : Option Int), retryableStatus st = false →
      updateBackoff b (.failure st) = b) ∧
    (∀ b : Int, 0 ≤ b → updateBackoff b .success = max 0 (b - 1)) ∧
    List.foldl updateBackoff 0
      [.failure (some 503), .failure (some 503), .failure (some 503)] = 3 ∧
    List.foldl updateBackoff 0
      [.failure (some 503), .failure (some 503), .failure (some 503), .success] = 2 := by
  refine ⟨?_, ?_, ?_, ?_, by decide, by decide⟩
  · intro b o hb hb2
    cases o with
    | success =>
      simp only [updateBackoff]
      split <;> constructor <;> omega
    | failure st =>
      simp only [updateBackoff, MAX_BACKOFF_STEPS] at *
      split <;> constructor <;> omega
  · intro b st hst
    simp [updateBackoff, hst]
  · intro b st hst
    simp [updateBackoff, hst]
  · intro b hb
    simp only [updateBackoff]
    split <;> omega

/-- Witness for C7 at concrete inputs. -/
theorem backoffSteps_invariant_witness :
    (0 ≤ updateBackoff 12 (.failure (some 503)) ∧
      updateBackoff 12 (.failure (some 503)) ≤ MAX_BACKOFF_STEPS) ∧
    updateBackoff 0 (.failure (some 429)) = min MAX_BACKOFF_STEPS 1 ∧
    updateBackoff 5 (.failure (some 404)) = 5 ∧
    updateBackoff 3 .success = max 0 2 :=
  ⟨backoffSteps_invariant.1 12 (.failure (some 503)) (by decide) (by decide),
   backoffSteps_invariant.2.1 0 (some 429) (by decide),
   backoffSteps_invariant.2.2.1 5 (some 404) (by decide),
   backoffSteps_invariant.2.2.2.1 3 (by decide)⟩

/-! ### C8: the option-chain watcher tick (`tickOnce`, `src/app.ts`
lines 205–327).

The closure state of the watcher is `OcFeedState`; everything the tick
observes from outside (market clock, day key, the `resolveExpiry` result,
and the outcomes of the upstream fetch and of the two persistence calls)
is an explicit environment.  The result carries the post-state plus the
number of upstream option-chain fetches and of persistence writes
performed.  The expiry re-resolution's own upstream traffic is abstracted
into `resolved`. -/

structure OcFeedState where
  stopped : Bool
  inFlight : Bool
  backoffSteps : Int
  expiry : Option String
  lastResolveDay : String
  lastClosedLog : Int
deriving DecidableEq, Repr

inductive DbResult where
  | ok
  | err (status : Option Int)
deriving DecidableEq, Repr

structure TickEnv where
  marketHoursOnly : Bool
  marketOpen : Bool
  now : Int
  today : String
  resolved : Option String
  fetch : DbResult
  upsert : DbResult
  insertTick : DbResult
deriving DecidableEq, Repr

/-- The day-rollover at the top of the tick body: with `inFlight` now set,
once per new day re-resolve the expiry (`if (newExp && newExp !== expiry)
expiry = newExp`, so a failed resolution keeps the old one) and update
`lastExpiryResolveDayKey` regardless of the resolution outcome. -/
def rolloverState (env : TickEnv) (s : OcFeedState) : OcFeedState :=
  if env.today ≠ s.lastResolveDay then
    { s with
      inFlight := true,
      expiry := (match env.resolved with
        | some e => some e
        | none => s.expiry),
      lastResolveDay := env.today }
  else { s with inFlight := true }

/-- The `try`/`catch`/`finally` body of `tickOnce` after the rollover:
guard on a missing expiry, fetch, upsert the snapshot, append the tick,
update `backoffSteps` (decrement on success, clamped increment on a
retryable failure); `inFlight` is cleared on every exit path
(`finally`). -/
def tickBody (env : TickEnv) (s1 : OcFeedState) : OcFeedState × Nat × Nat :=
  match s1.expiry with
  | none => ({ s1 with inFlight := false }, 0, 0)
  | some _ =>
    match env.fetch with
    | .err st =>
      ({ s1 with
         inFlight := false,
         backoffSteps := updateBackoff s1.backoffSteps (.failure st) }, 1, 0)
    | .ok =>
      match env.upsert with
      | .err st =>
        ({ s1 with
           inFlight := false,
           backoffSteps := updateBackoff s1.backoffSteps (.failure st) }, 1, 0)
      | .ok =>
        match env.insertTick with
        | .err st =>
          ({ s1 with
             inFlight := false,
             backoffSteps := updateBackoff s1.backoffSteps (.failure st) }, 1, 1)
        | .ok =>
          ({ s1 with
             inFlight := false,
             backoffSteps := updateBackoff s1.backoffSteps .success }, 1, 2)

/-- `tickOnce`: guard on `stopped || inFlight`; market-hours skip (with
the rate-limited closed log); otherwise run the body. -/
def tickOnce (env : TickEnv) (s : OcFeedState) : OcFeedState × Nat × Nat :=
  if s.stopped || s.inFlight then (s, 0, 0)
  else if env.marketHoursOnly && !env.marketOpen then
    (if env.now - s.lastClosedLog > 60000 then { s with lastClosedLog := env.now }
     else s, 0, 0)
  else tickBody env (rolloverState env s)

theorem tickBody_clears_inFlight (env : TickEnv) (s1 : OcFeedState) :
    (tickBody env s1).1.inFlight = false := by
  unfold tickBody
  cases s1.expiry <;> cases env.fetch <;> cases env.upsert <;> cases env.insertTick <;> rfl

/-- Claim C8: a tick that starts with `inFlight = true` is a complete
no-op (no fetch, no write, state unchanged), and every tick that starts
with `inFlight = false` ends with `inFlight = false`, on the success and
on every failure path. -/
theorem tick_inFlight_guard :
    (∀ (env : TickEnv) (s : OcFeedState), s.inFlight = true →
      tickOnce env s = (s, 0, 0)) ∧
    (∀ (env : TickEnv) (s : OcFeedState), s.inFlight = false →
      (tickOnce env s).1.inFlight = false) := by
  constructor
  · intro env s h
    simp [tickOnce, h]
  · intro env s h
    unfold tickOnce
    split
    · exact h
    · split
      · split
        · exact h
        · exact h
      · exact tickBody_clears_inFlight env (rolloverState env s)

def envWitness : TickEnv :=
  ⟨true, true, 120000, "2025-01-06", some "2025-01-30", .ok, .ok, .ok⟩

def stateBusy : OcFeedState := ⟨false, true, 3, some "2025-01-30", "2025-01-03", 0⟩

def stateIdle : OcFeedState := ⟨false, false, 3, some "2025-01-30", "2025-01-03", 0⟩

/-- Witness for C8 at concrete inputs. -/
theorem tick_inFlight_guard_witness :
    tickOnce envWitness stateBusy = (stateBusy, 0, 0) ∧
    (tickOnce envWitness stateIdle).1.inFlight = false :=
  ⟨tick_inFlight_guard.1 envWitness stateBusy rfl,
   tick_inFlight_guard.2 envWitness stateIdle rfl⟩

/-! ### C9: the pacing gate. -/

/-- Modelled from the spec: `dhanPacer.ts` (the PacingGate behind
`scheduleOC`/`scheduleQuote`/`getDhanMinGap`) is not under `src/` — only
its callers are.  Spec §4.2: a serialized dispatcher holds a single
"next allowed dispatch time" watermark; when a task is ready to dispatch,
it waits until `now >= watermark`, dispatches, and the watermark becomes
`now + globalMinGapMs`.  A task is `(queueId, readyTime)` in arrival
order at the single admission point; the result pairs each queueId with
its dispatch start time. -/
def runGate (gap : Nat) : Nat → List (Nat × Nat) → List (Nat × Nat)
  | _, [] => []
  | w, (q, ready) :: ts => (q, max ready w) :: runGate gap (max ready w + gap) ts

theorem runGate_head_ge (gap : Nat) :
    ∀ (ts : List (Nat × Nat)) (w : Nat) (x : Nat × Nat),
      (runGate gap w ts).head? = some x → w ≤ x.2 := by
  intro ts w x h
  cases ts with
  | nil => simp [runGate] at h
  | cons t ts =>
    obtain ⟨q, ready⟩ := t
    simp only [runGate, List.head?_cons, Option.some.injEq] at h
    subst h
    exact Nat.le_max_right _ _

/-- Claim C9: for every task sequence across any number of sub-queues, the
gate dispatches every task (same number, same queue ids in order — no
task is dropped) and any two consecutive dispatch start times are at
least the global minimum gap apart. -/
theorem pacingGate_min_gap (gap : Nat) (w : Nat) (ts : List (Nat × Nat)) :
    (runGate gap w ts).length = ts.length ∧
    (runGate gap w ts).map Prod.fst = ts.map Prod.fst ∧
    List.Chain' (fun a b : Nat × Nat => a.2 + gap ≤ b.2) (runGate gap w ts) := by
  induction ts generalizing w with
  | nil => simp [runGate]
  | cons t ts ih =>
    obtain ⟨q, ready⟩ := t
    refine ⟨by simp [runGate, (ih _).1], by simp [runGate, (ih _).2.1], ?_⟩
    simp only [runGate]
    apply List.chain'_cons'.mpr
    refine ⟨?_, (ih _).2.2⟩
    intro b hb
    have hh := runGate_head_ge gap ts (max ready w + gap) b (Option.mem_def.mp hb)
    omega

/-! ### C10: `pickNearestExpiry` (src/option_chain.ts lines 56–62).

JS compares the expiry strings with `>=`, i.e. code-unit lexicographic
order, and `Array.prototype.sort()` without a comparator sorts the same
way; a date string is therefore modelled as its list of characters and
the order as the explicit lexicographic comparator `strLe` (Lean's own
`String` order is not kernel-reducible). -/

/-- Code-unit lexicographic `a <= b` on strings, as JS `>=`/default sort
use it (restricted to the BMP, which covers the "YYYY-MM-DD" inputs). -/
def strLe : List Char → List Char → Bool
  | [], _ => true
  | _ :: _, [] => false
  | a :: as, b :: bs =>
    if a < b then true
    else if b < a then false
    else strLe as bs

theorem strLe_total : ∀ a b, strLe a b = true ∨ strLe b a = true := by
  intro a
  induction a with
  | nil => intro b; left; rfl
  | cons c as ih =>
    intro b
    cases b with
    | nil => right; rfl
    | cons d bs =>
      rcases lt_trichotomy c d with h | h | h
      · left; simp [strLe, h]
      · subst h
        rcases ih bs with h2 | h2
        · left; simp [strLe, lt_irrefl, h2]
        · right; simp [strLe, lt_irrefl, h2]
      · right; simp [strLe, h]

theorem strLe_trans :
    ∀ a b c, strLe a b = true → strLe b c = true → strLe a c = true := by
  intro a
  induction a with
  | nil => intro b c _ _; rfl
  | cons x as ih =>
    intro b c hab hbc
    cases b with
    | nil => simp [strLe] at hab
    | cons y bs =>
      cases c with
      | nil => simp [strLe] at hbc
      | cons z cs =>
        simp only [strLe] at hab hbc ⊢
        by_cases hxy : x < y
        · by_cases hyz : y < z
          · simp [lt_trans hxy hyz]
          · by_cases hzy : z < y
            · simp [strLe, hyz, hzy] at hbc
            · have : y = z := le_antisymm (not_lt.mp hzy) (not_lt.mp hyz)
              subst this
              simp [hxy]
        · by_cases hyx : y < x
          · simp [hxy, hyx] at hab
          · have : x = y := le_antisymm (not_lt.mp hyx) (not_lt.mp hxy)
            subst this
            by_cases hxz : x < z
            · simp [hxz]
            · by_cases hzx : z < x
              · simp [hxz, hzx] at hbc
              · have : x = z := le_antisymm (not_lt.mp hzx) (not_lt.mp hxz)
                subst this
                simp only [lt_irrefl, if_false] at hab hbc ⊢
                exact ih bs cs hab hbc

/-- `pickNearestExpiry` of `src/option_chain.ts`:
`if (!expiries?.length) return null; const sorted = expiries.slice().sort();
for (const e of sorted) if (e >= today) return e;
return sorted[sorted.length - 1] ?? null;` -/
def pickNearestExpiry (expiries : List (List Char)) (today : List Char) :
    Option (List Char) :=
  if expiries.isEmpty then none
  else
    match (sortLe strLe expiries).find? (fun e => strLe today e) with
    | some e => some e
    | none => (sortLe strLe expiries).getLast?

/-- Claim C10: `pickNearestExpiry` returns null iff the list is empty (a
missing list is the empty list in the model); on a non-empty list it
returns a member: the lexicographically smallest expiry on or after
`today` when one exists, else the lexicographically largest expiry. -/
theorem pickNearestExpiry_spec :
    (∀ (expiries : List (List Char)) (today : List Char),
      pickNearestExpiry expiries today = none ↔ expiries = []) ∧
    (∀ (expiries : List (List Char)) (today r : List Char),
      pickNearestExpiry expiries today = some r →
        r ∈ expiries ∧
        ((∃ e ∈ expiries, strLe today e = true) →
          strLe today r = true ∧ ∀ e ∈ expiries, strLe today e = true → strLe r e = true) ∧
        ((∀ e ∈ expiries, strLe today e = false) →
          ∀ e ∈ expiries, strLe e r = true)) := by
  constructor
  · intro expiries today
    constructor
    · intro h
      by_contra hne
      have hemp : expiries.isEmpty = false := by
        cases expiries
        · exact absurd rfl hne
        · rfl
      rw [pickNearestExpiry, hemp] at h
      simp only [Bool.false_eq_true, if_false] at h
      cases hf : (sortLe strLe expiries).find? (fun e => strLe today e) with
      | some e => rw [hf] at h; cases h
      | none =>
        rw [hf] at h
        have hlen : (sortLe strLe expiries).length = expiries.length :=
          (sortLe_perm strLe expiries).length_eq
        have : (sortLe strLe expiries) ≠ [] := by
          intro hc
          rw [hc] at hlen
          cases expiries
          · exact hne rfl
          · simp at hlen
        rw [List.getLast?_eq_none_iff] at h
        exact this h
    · intro h
      subst h
      rfl
  · intro expiries today r hres
    by_cases hemp : expiries.isEmpty
    · rw [pickNearestExpiry, if_pos hemp] at hres; cases hres
    · rw [pickNearestExpiry, if_neg hemp] at hres
      have hperm := sortLe_perm strLe expiries
      have hpw := pairwise_sortLe strLe_total strLe_trans expiries
      cases hf : (sortLe strLe expiries).find? (fun e => strLe today e) with
      | some e =>
        rw [hf] at hres
        cases hres
        refine ⟨hperm.mem_iff.mp (List.mem_of_find?_eq_some hf), ?_, ?_⟩
        · intro _
          refine ⟨List.find?_some hf, ?_⟩
          intro x hx hpx
          rcases find?_first_of_pairwise hpw hf x (hperm.mem_iff.mpr hx) hpx with rfl | hle
          · rcases strLe_total r r with h | h <;> exact h
          · exact hle
        · intro hall
          have := hall r (hperm.mem_iff.mp (List.mem_of_find?_eq_some hf))
          rw [List.find?_some hf] at this
          cases this
      | none =>
        rw [hf] at hres
        have hmem : r ∈ sortLe strLe expiries := getLast?_mem_self hres
        refine ⟨hperm.mem_iff.mp hmem, ?_, ?_⟩
        · intro hex
          exfalso
          rcases hex with ⟨e, he, hte⟩
          have := List.find?_eq_none.mp hf e (hperm.mem_iff.mpr he)
          simp [hte] at this
        · intro _ e he
          rcases pairwise_le_getLast? hpw hres e (hperm.mem_iff.mpr he) with rfl | hle
          · rcases strLe_total e e with h | h <;> exact h
          · exact hle

/-- Witness for C10 at a concrete input: among `["c", "a"]` with today
`"b"`, the result is `"c"` — a member, at least `today`, and minimal
among the expiries ≥ today. -/
theorem pickNearestExpiry_spec_witness :
    pickNearestExpiry [['c'], ['a']] ['b'] = some ['c'] ∧
    ['c'] ∈ [[('c' : Char)], ['a']] ∧
    strLe ['b'] ['c'] = true ∧
    (∀ e ∈ [[('c' : Char)], ['a']], strLe ['b'] e = true → strLe ['c'] e = true) := by
  have h := pickNearestExpiry_spec.2 [['c'], ['a']] ['b'] ['c'] (by decide)
  exact ⟨by decide, h.1, (h.2.1 ⟨['c'], by decide, by decide⟩).1,
    (h.2.1 ⟨['c'], by decide, by decide⟩).2⟩

end Upholic










